import Mathlib

/-!
Verification of the AirWrite-AI core against its specification.

The development shallowly embeds the two core subsystems of the repository:
the gesture classifier / debouncer (`src/gestures/gesture_logic.py`) and the
stroke capture and smoothing pipeline (`src/strokes/stroke_tracker.py`,
`src/strokes/stroke_smoothing.py`).

Coordinates are embedded as exact rationals.  The Python code compares
`math.sqrt` / `np.sqrt` values against thresholds; since all radicands here
are sums of squares (hence nonnegative), each such comparison is encoded
exactly over `ℚ` by comparing squares (see `sqrtLt`, `sqrtGt`, `sqrtGe`,
`ratioGt` below).  Python `int(...)` / `astype(int)` truncates toward zero,
encoded by `truncQ`.  Calls into scipy (`savgol_filter`, `splprep`/`splev`)
and `np.exp` are external library code, not part of this repository; they are
taken as parameters (`Oracles`) so every theorem holds for an arbitrary
behaviour of those externals, and a raised exception is modelled as `none`.
-/

namespace AirWrite

/-- A 2-D point, exact rational coordinates (Python uses int / float tuples). -/
abbrev Pt : Type := ℚ × ℚ

/-- Squared euclidean distance; the Python code computes
`sqrt((x1-x2)**2 + (y1-y2)**2)` and only ever compares the result, so the
square is what the embedding carries around. -/
def distSq (p q : Pt) : ℚ := (p.1 - q.1) ^ 2 + (p.2 - q.2) ^ 2

/-- Encodes `sqrt x < c` exactly, for a radicand `x ≥ 0`. -/
def sqrtLt (x c : ℚ) : Bool := decide (0 < c ∧ x < c ^ 2)

/-- Encodes `sqrt x > c` exactly, for a radicand `x ≥ 0`. -/
def sqrtGt (x c : ℚ) : Bool := decide (c < 0 ∨ c ^ 2 < x)

/-- Encodes `sqrt x ≥ c` exactly, for a radicand `x ≥ 0`. -/
def sqrtGe (x c : ℚ) : Bool := decide (c ≤ 0 ∨ c ^ 2 ≤ x)

/-- Encodes `sqrt a > (9/10) * sqrt b` exactly, for radicands `a, b ≥ 0`. -/
def ratioGt (a b : ℚ) : Bool := decide ((81 / 100) * b < a)

/-- Python `int(...)` / numpy `astype(int)`: truncation toward zero. -/
def truncQ (q : ℚ) : ℤ := if 0 ≤ q then ⌊q⌋ else ⌈q⌉

/-- Truncate both coordinates of a point toward zero. -/
def truncPt (p : Pt) : Pt := ((truncQ p.1 : ℚ), (truncQ p.2 : ℚ))

/-! ## Gesture classifier (`src/gestures/gesture_logic.py`) -/

/-- The closed set of gesture labels (`GESTURE_NONE` .. `GESTURE_CLEAR`,
string constants in the source). -/
inductive Gesture : Type where
  | NONE
  | WRITING
  | STOP
  | SPACE
  | CLEAR
deriving DecidableEq

open Gesture

/-- One MediaPipe hand landmark: normalized x, y and relative depth z. -/
structure Landmark : Type where
  x : ℚ
  y : ℚ
  z : ℚ
deriving DecidableEq

/-- A landmark set: exactly 21 labelled points for one hand. -/
abbrev Hand : Type := Fin 21 → Landmark

/-- MediaPipe landmark indices, as in `GestureRecognizer.__init__`. -/
def WRIST : Fin 21 := 0
def THUMB_TIP : Fin 21 := 4
def INDEX_TIP : Fin 21 := 8
def INDEX_MCP : Fin 21 := 5
def MIDDLE_TIP : Fin 21 := 12
def MIDDLE_MCP : Fin 21 := 9
def RING_TIP : Fin 21 := 16
def RING_MCP : Fin 21 := 13
def PINKY_TIP : Fin 21 := 20
def PINKY_MCP : Fin 21 := 17

/-- `GestureRecognizer.is_finger_extended`: a non-thumb finger is extended iff
`dist(tip, wrist) > 0.9 * dist(mcp, wrist)` in normalized planar x/y. -/
def is_finger_extended (h : Hand) (tip_id mcp_id : Fin 21) (wrist : ℚ × ℚ) : Bool :=
  let tip := h tip_id
  let mcp := h mcp_id
  ratioGt (distSq (tip.x, tip.y) wrist) (distSq (mcp.x, mcp.y) wrist)

/-- `GestureRecognizer.is_thumb_extended`:
`dist(thumb_tip, index_mcp) > 0.1` in normalized planar x/y. -/
def is_thumb_extended (h : Hand) : Bool :=
  let thumb_tip := h THUMB_TIP
  let index_mcp := h INDEX_MCP
  sqrtGt (distSq (thumb_tip.x, thumb_tip.y) (index_mcp.x, index_mcp.y)) (1 / 10)

/-- `GestureRecognizer.detect_gesture`.  The source also converts the thumb
and index tips to pixel coordinates (`get_landmark_coords`); those pixel
values are never used by the classification, so they are omitted here.  The
frame width and height are kept as arguments for the same signature, though
the result does not depend on them. -/
def detect_gesture (hand_landmarks : Option Hand) (_frame_width _frame_height : ℚ) :
    Gesture :=
  match hand_landmarks with
  | none => NONE
  | some h =>
    let wrist := h WRIST
    let wrist_norm : ℚ × ℚ := (wrist.x, wrist.y)
    let thumb_tip := h THUMB_TIP
    let index_tip := h INDEX_TIP
    let index_extended := is_finger_extended h INDEX_TIP INDEX_MCP wrist_norm
    let middle_extended := is_finger_extended h MIDDLE_TIP MIDDLE_MCP wrist_norm
    let ring_extended := is_finger_extended h RING_TIP RING_MCP wrist_norm
    let pinky_extended := is_finger_extended h PINKY_TIP PINKY_MCP wrist_norm
    let thumb_extended := is_thumb_extended h
    let extended_count :=
      index_extended.toNat + middle_extended.toNat + ring_extended.toNat +
        pinky_extended.toNat
    let thumb_index_distance_sq :=
      distSq (thumb_tip.x, thumb_tip.y) (index_tip.x, index_tip.y)
    if sqrtLt thumb_index_distance_sq (5 / 100) && !ring_extended && !pinky_extended then
      CLEAR
    else if index_extended && middle_extended && !ring_extended && !pinky_extended then
      SPACE
    else if index_extended && !middle_extended && !ring_extended && !pinky_extended then
      WRITING
    else if extended_count == 0 && !thumb_extended then
      STOP
    else
      NONE

/-- Classifier written from the words of the specification (claim C2): NONE
with no hand; else, in strict priority order, CLEAR / SPACE / WRITING / STOP /
NONE, where STOP requires none of index, middle, ring, pinky extended and the
thumb not extended. -/
def specClassify (hand_landmarks : Option Hand) (_frame_width _frame_height : ℚ) :
    Gesture :=
  match hand_landmarks with
  | none => NONE
  | some h =>
    let wrist := h WRIST
    let w : ℚ × ℚ := (wrist.x, wrist.y)
    let index_e := is_finger_extended h INDEX_TIP INDEX_MCP w
    let middle_e := is_finger_extended h MIDDLE_TIP MIDDLE_MCP w
    let ring_e := is_finger_extended h RING_TIP RING_MCP w
    let pinky_e := is_finger_extended h PINKY_TIP PINKY_MCP w
    let thumb_e := is_thumb_extended h
    let pinch :=
      sqrtLt (distSq ((h THUMB_TIP).x, (h THUMB_TIP).y)
        ((h INDEX_TIP).x, (h INDEX_TIP).y)) (5 / 100)
    if pinch && !ring_e && !pinky_e then CLEAR
    else if index_e && middle_e && !ring_e && !pinky_e then SPACE
    else if index_e && !middle_e && !ring_e && !pinky_e then WRITING
    else if !index_e && !middle_e && !ring_e && !pinky_e && !thumb_e then STOP
    else NONE

/-- C2: `detect_gesture` is a pure function of the landmark set and frame
dimensions, returning NONE with no hand and otherwise checking CLEAR, SPACE,
WRITING, STOP in strict priority order, with extension defined by the 0.9
wrist-distance ratio and the 0.1 thumb threshold. -/
theorem detect_gesture_matches_spec (hand_landmarks : Option Hand)
    (fw fh : ℚ) : detect_gesture hand_landmarks fw fh = specClassify hand_landmarks fw fh := by
  cases hand_landmarks with
  | none => rfl
  | some h =>
    simp only [detect_gesture, specClassify]
    cases hI : is_finger_extended h INDEX_TIP INDEX_MCP ((h WRIST).x, (h WRIST).y) <;>
      cases hM : is_finger_extended h MIDDLE_TIP MIDDLE_MCP ((h WRIST).x, (h WRIST).y) <;>
        cases hR : is_finger_extended h RING_TIP RING_MCP ((h WRIST).x, (h WRIST).y) <;>
          cases hP : is_finger_extended h PINKY_TIP PINKY_MCP ((h WRIST).x, (h WRIST).y) <;>
            simp

/-! ## Gesture debouncer (`GestureRecognizer.update_gesture`) -/

/-- The mutable state of `GestureRecognizer` (field order as in `__init__`;
the landmark index constants are module-level in this embedding). -/
structure GestureRecognizer : Type where
  current_gesture : Gesture
  previous_gesture : Gesture
  gesture_hold_frames : ℕ
  gesture_frame_count : ℕ
  confirmed_gesture : Gesture
deriving DecidableEq

/-- `GestureRecognizer.__init__` / `reset`: all labels NONE, count 0. -/
def GestureRecognizer.init (gesture_hold_frames : ℕ := 5) : GestureRecognizer :=
  { current_gesture := NONE
    previous_gesture := NONE
    gesture_hold_frames := gesture_hold_frames
    gesture_frame_count := 0
    confirmed_gesture := NONE }

/-- `GestureRecognizer.update_gesture`, taking the per-frame detected label
directly (the source obtains it from `detect_gesture` first); returns the new
state and the `gesture_changed` flag, the confirmed label being readable from
the state. -/
def update_gesture (s : GestureRecognizer) (detected_gesture : Gesture) :
    GestureRecognizer × Bool :=
  let s1 :=
    if detected_gesture = s.current_gesture then
      { s with gesture_frame_count := s.gesture_frame_count + 1 }
    else
      { s with current_gesture := detected_gesture, gesture_frame_count := 1 }
  if s1.gesture_hold_frames ≤ s1.gesture_frame_count then
    if s1.confirmed_gesture ≠ s1.current_gesture then
      ({ s1 with
          previous_gesture := s1.confirmed_gesture
          confirmed_gesture := s1.current_gesture }, true)
    else (s1, false)
  else (s1, false)

/-- Fold `update_gesture` over a frame sequence, keeping the final state. -/
def runState (s : GestureRecognizer) (l : List Gesture) : GestureRecognizer :=
  l.foldl (fun s g => (update_gesture s g).1) s

/-- Fold `update_gesture` over a frame sequence, collecting the per-frame
`(confirmed label, changed)` outputs. -/
def runOuts (s : GestureRecognizer) : List Gesture → List (Gesture × Bool)
  | [] => []
  | g :: rest =>
    let r := update_gesture s g
    (r.1.confirmed_gesture, r.2) :: runOuts r.1 rest

/-- Length of the initial run of identical labels of a list. -/
def headRun : List Gesture → ℕ
  | [] => 0
  | a :: r => (r.takeWhile (fun b => b == a)).length + 1

/-- Length of the run of identical labels ending a list. -/
def trail (l : List Gesture) : ℕ := headRun l.reverse

/-- Number of consecutive frames, up to and including frame `i`, on which the
label of frame `i` has occurred. -/
def trailAt (l : List Gesture) (i : ℕ) : ℕ := trail (l.take (i + 1))

/-- Helper of `lastConfirmed`, walking the reversed frame list. -/
def confR (hold : ℕ) : List Gesture → Gesture
  | [] => NONE
  | a :: r => if hold ≤ headRun (a :: r) then a else confR hold r

/-- The label of the latest frame whose label has occurred for at least
`hold` consecutive frames ending there, NONE if no frame qualifies.  This is
the purely sequence-level description of the debounced (confirmed) label. -/
def lastConfirmed (hold : ℕ) (l : List Gesture) : Gesture := confR hold l.reverse

/-- Sequence-level description of when frame `i` reports a change: its label
has occurred for at least `hold` consecutive frames ending at `i`, and it
differs from the confirmed label of the preceding prefix. -/
def changedSpec (hold : ℕ) (l : List Gesture) (i : ℕ) : Bool :=
  decide (hold ≤ trailAt l i) &&
    decide (lastConfirmed hold (l.take i) ≠ l.getD i NONE)

/-- Sequence-level description of all per-frame debouncer outputs. -/
def specOuts (hold : ℕ) (l : List Gesture) : List (Gesture × Bool) :=
  (List.range l.length).map fun i =>
    (lastConfirmed hold (l.take (i + 1)), changedSpec hold l i)

/-- Index of the first element satisfying a predicate. -/
def firstHit (p : α → Bool) : List α → Option ℕ
  | [] => none
  | a :: r => if p a then some 0 else (firstHit p r).map (· + 1)

/-- First frame index at which the machine, run from the reset state, reports
`changed = true` with confirmed label `X`. -/
def firstConfirm (hold : ℕ) (l : List Gesture) (X : Gesture) : Option ℕ :=
  firstHit (fun o => o.2 && decide (o.1 = X)) (runOuts (GestureRecognizer.init hold) l)

/-- First frame index at which label `X` has occurred for at least `hold`
consecutive frames. -/
def firstQualified (hold : ℕ) (l : List Gesture) (X : Gesture) : Option ℕ :=
  firstHit (fun i => decide (l.getD i NONE = X) && decide (hold ≤ trailAt l i))
    (List.range l.length)

theorem runState_append (s : GestureRecognizer) (l1 l2 : List Gesture) :
    runState s (l1 ++ l2) = runState (runState s l1) l2 := by
  unfold runState
  rw [List.foldl_append]

theorem runOuts_append (s : GestureRecognizer) (l1 l2 : List Gesture) :
    runOuts s (l1 ++ l2) = runOuts s l1 ++ runOuts (runState s l1) l2 := by
  induction l1 generalizing s with
  | nil => simp [runOuts, runState]
  | cons a t ih =>
    simp only [List.cons_append, runOuts, runState, List.foldl_cons, List.append_eq]
    rw [ih]
    rfl

theorem trail_append_singleton (p : List Gesture) (g : Gesture) :
    trail (p ++ [g]) = if p.getLast?.getD NONE = g then trail p + 1 else 1 := by
  unfold trail
  rw [List.reverse_append, List.reverse_singleton, List.singleton_append]
  cases hrev : p.reverse with
  | nil =>
    have hp : p = [] := List.reverse_eq_nil_iff.mp hrev
    subst hp
    simp only [List.reverse_nil, headRun, List.takeWhile_nil, List.length_nil]
    cases hgn : decide ((List.getLast? ([] : List Gesture)).getD NONE = g) <;>
      simp_all [headRun]
  | cons a t =>
    have hlast : p.getLast? = some a := by
      rw [← List.head?_reverse, hrev]
      rfl
    rw [hlast, Option.getD_some]
    by_cases hag : a = g
    · subst hag
      rw [if_pos rfl]
      simp [headRun, List.takeWhile_cons]
    · rw [if_neg hag]
      simp [headRun, List.takeWhile_cons, hag]

theorem lastConfirmed_append_singleton (hold : ℕ) (p : List Gesture) (g : Gesture) :
    lastConfirmed hold (p ++ [g]) =
      if hold ≤ trail (p ++ [g]) then g else lastConfirmed hold p := by
  unfold lastConfirmed trail
  rw [List.reverse_append, List.reverse_singleton, List.singleton_append]
  rfl

theorem update_step (hold : ℕ) (s : GestureRecognizer) (p : List Gesture) (g : Gesture)
    (h1 : s.gesture_hold_frames = hold) (h2 : s.gesture_frame_count = trail p)
    (h3 : s.current_gesture = p.getLast?.getD NONE)
    (h4 : s.confirmed_gesture = lastConfirmed hold p) :
    (update_gesture s g).1.gesture_hold_frames = hold ∧
    (update_gesture s g).1.gesture_frame_count = trail (p ++ [g]) ∧
    (update_gesture s g).1.current_gesture = g ∧
    (update_gesture s g).1.confirmed_gesture = lastConfirmed hold (p ++ [g]) ∧
    (update_gesture s g).2 =
      (decide (hold ≤ trail (p ++ [g])) && decide (lastConfirmed hold p ≠ g)) := by
  have htr : trail (p ++ [g]) =
      if g = s.current_gesture then s.gesture_frame_count + 1 else 1 := by
    rw [trail_append_singleton, h2, h3]
    by_cases hc : g = p.getLast?.getD NONE
    · rw [if_pos hc.symm, if_pos hc]
    · rw [if_neg (fun h => hc h.symm), if_neg hc]
  rw [lastConfirmed_append_singleton]
  unfold update_gesture
  by_cases hc : g = s.current_gesture
  · rw [htr, if_pos hc]
    simp only [if_pos hc]
    by_cases hhold : hold ≤ s.gesture_frame_count + 1
    · rw [h1]
      simp only [if_pos hhold, hc]
      by_cases hconf : s.confirmed_gesture ≠ s.current_gesture
      · simp_all
      · push_neg at hconf
        simp_all
    · rw [h1]
      simp only [if_neg hhold]
      simp_all
  · rw [htr, if_neg hc]
    simp only [if_neg hc]
    by_cases hhold : hold ≤ 1
    · rw [h1]
      simp only [if_pos hhold]
      by_cases hconf : s.confirmed_gesture ≠ g
      · simp_all
      · push_neg at hconf
        simp_all
    · rw [h1]
      simp only [if_neg hhold]
      simp_all

theorem runState_fields (hold : ℕ) (l : List Gesture) :
    (runState (GestureRecognizer.init hold) l).gesture_hold_frames = hold ∧
    (runState (GestureRecognizer.init hold) l).gesture_frame_count = trail l ∧
    (runState (GestureRecognizer.init hold) l).current_gesture = l.getLast?.getD NONE ∧
    (runState (GestureRecognizer.init hold) l).confirmed_gesture = lastConfirmed hold l := by
  induction l using List.reverseRecOn with
  | nil =>
    refine ⟨rfl, rfl, rfl, rfl⟩
  | append_singleton p g ih =>
    obtain ⟨i1, i2, i3, i4⟩ := ih
    have hs := update_step hold _ p g i1 i2 i3 i4
    rw [runState_append]
    have hrun : runState (runState (GestureRecognizer.init hold) p) [g] =
        (update_gesture (runState (GestureRecognizer.init hold) p) g).1 := rfl
    rw [hrun]
    refine ⟨hs.1, hs.2.1, ?_, hs.2.2.2.1⟩
    rw [hs.2.2.1, List.getLast?_concat]
    rfl

theorem getD_concat_length (p : List Gesture) (g : Gesture) :
    (p ++ [g]).getD p.length NONE = g := by
  rw [List.getD_eq_getElem?_getD, List.getElem?_concat_length]
  rfl

theorem trailAt_concat_length (p : List Gesture) (g : Gesture) :
    trailAt (p ++ [g]) p.length = trail (p ++ [g]) := by
  unfold trailAt
  rw [List.take_of_length_le (by simp)]

theorem changedSpec_append_singleton (hold : ℕ) (p : List Gesture) (g : Gesture)
    (i : ℕ) (hi : i < p.length) :
    changedSpec hold (p ++ [g]) i = changedSpec hold p i := by
  unfold changedSpec trailAt
  rw [List.take_append_of_le_length (by omega),
    List.take_append_of_le_length (le_of_lt hi), List.getD_append _ _ _ _ hi]

theorem changedSpec_at_concat (hold : ℕ) (p : List Gesture) (g : Gesture) :
    changedSpec hold (p ++ [g]) p.length =
      (decide (hold ≤ trail (p ++ [g])) && decide (lastConfirmed hold p ≠ g)) := by
  unfold changedSpec
  rw [trailAt_concat_length, List.take_append_of_le_length le_rfl, List.take_length,
    getD_concat_length]

theorem specOuts_append_singleton (hold : ℕ) (p : List Gesture) (g : Gesture) :
    specOuts hold (p ++ [g]) = specOuts hold p ++
      [(lastConfirmed hold (p ++ [g]), changedSpec hold (p ++ [g]) p.length)] := by
  unfold specOuts
  have hlen : (p ++ [g]).length = p.length + 1 := by simp
  rw [hlen, List.range_succ, List.map_append]
  congr 1
  · apply List.map_congr_left
    intro i hi
    rw [List.mem_range] at hi
    rw [List.take_append_of_le_length (by omega),
      changedSpec_append_singleton hold p g i hi]
  · rw [List.map_cons, List.map_nil]
    congr 2
    rw [List.take_of_length_le (by simp)]

theorem runOuts_eq_specOuts (hold : ℕ) (l : List Gesture) :
    runOuts (GestureRecognizer.init hold) l = specOuts hold l := by
  induction l using List.reverseRecOn with
  | nil => rfl
  | append_singleton p g ih =>
    rw [runOuts_append, ih, specOuts_append_singleton]
    congr 1
    obtain ⟨i1, i2, i3, i4⟩ := runState_fields hold p
    have hs := update_step hold _ p g i1 i2 i3 i4
    show [((update_gesture (runState (GestureRecognizer.init hold) p) g).1.confirmed_gesture,
        (update_gesture (runState (GestureRecognizer.init hold) p) g).2)] = _
    rw [hs.2.2.2.1, hs.2.2.2.2, changedSpec_at_concat]

theorem firstHit_map {α β : Type} (p : β → Bool) (f : α → β) (l : List α) :
    firstHit p (l.map f) = firstHit (fun a => p (f a)) l := by
  induction l with
  | nil => rfl
  | cons a t ih => simp only [List.map_cons, firstHit, ih]

theorem firstHit_range_none_iff (p : ℕ → Bool) (n : ℕ) :
    firstHit p (List.range n) = none ↔ ∀ i, i < n → p i = false := by
  induction n generalizing p with
  | zero => simp [firstHit, List.range_zero]
  | succ n ih =>
    rw [List.range_succ_eq_map]
    simp only [firstHit, firstHit_map]
    cases hp0 : p 0 with
    | true =>
      simp only [if_true]
      constructor
      · exact fun h => Option.noConfusion h
      · intro h
        have h0 := h 0 (Nat.succ_pos n)
        rw [hp0] at h0
        exact absurd h0 (by simp)
    | false =>
      simp only [Bool.false_eq_true, if_false, Option.map_eq_none', ih]
      constructor
      · intro h i hi
        cases i with
        | zero => exact hp0
        | succ j => exact h j (by omega)
      · intro h j hj
        exact h (j + 1) (by omega)

theorem firstHit_range_some_iff (p : ℕ → Bool) (n i : ℕ) :
    firstHit p (List.range n) = some i ↔
      (i < n ∧ p i = true ∧ ∀ j, j < i → p j = false) := by
  induction n generalizing p i with
  | zero => simp [firstHit, List.range_zero]
  | succ n ih =>
    rw [List.range_succ_eq_map]
    simp only [firstHit, firstHit_map]
    cases hp0 : p 0 with
    | true =>
      simp only [if_true]
      constructor
      · intro h
        have h0 : i = 0 := (Option.some.inj h).symm
        subst h0
        exact ⟨Nat.succ_pos n, hp0, fun j hj => absurd hj (Nat.not_lt_zero j)⟩
      · rintro ⟨hi, hpi, hmin⟩
        cases i with
        | zero => rfl
        | succ j =>
          have := hmin 0 (Nat.succ_pos j)
          rw [hp0] at this
          exact absurd this (by simp)
    | false =>
      simp only [Bool.false_eq_true, if_false, Option.map_eq_some']
      constructor
      · rintro ⟨a, ha, rfl⟩
        obtain ⟨h1, h2, h3⟩ := (ih _ _).mp ha
        refine ⟨by omega, h2, ?_⟩
        intro j hj
        cases j with
        | zero => exact hp0
        | succ k => exact h3 k (by omega)
      · rintro ⟨hi, hpi, hmin⟩
        cases i with
        | zero =>
          rw [hpi] at hp0
          exact absurd hp0 (by simp)
        | succ a =>
          exact ⟨a, (ih _ _).mpr ⟨by omega, hpi, fun k hk => hmin (k + 1) (by omega)⟩, rfl⟩

theorem lastConfirmed_qualified (hold : ℕ) (p : List Gesture)
    (h : lastConfirmed hold p ≠ NONE) :
    ∃ j, j < p.length ∧ p.getD j NONE = lastConfirmed hold p ∧ hold ≤ trailAt p j := by
  induction p using List.reverseRecOn with
  | nil => exact absurd rfl h
  | append_singleton q g ih =>
    rw [lastConfirmed_append_singleton] at h ⊢
    by_cases hq : hold ≤ trail (q ++ [g])
    · rw [if_pos hq] at h ⊢
      exact ⟨q.length, by simp, getD_concat_length q g,
        by rw [trailAt_concat_length]; exact hq⟩
    · rw [if_neg hq] at h ⊢
      obtain ⟨j, hj, hgd, htr⟩ := ih h
      refine ⟨j, by simp; omega, ?_, ?_⟩
      · rw [List.getD_append _ _ _ _ hj]
        exact hgd
      · unfold trailAt at htr ⊢
        rw [List.take_append_of_le_length (by omega)]
        exact htr

theorem trailAt_take (l : List Gesture) (m j : ℕ) (hj : j < m) :
    trailAt (l.take m) j = trailAt l j := by
  unfold trailAt
  rw [List.take_take, min_eq_left (by omega)]

theorem getD_take (l : List Gesture) (m j : ℕ) (hj : j < m) :
    (l.take m).getD j NONE = l.getD j NONE := by
  rw [List.getD_eq_getElem?_getD, List.getD_eq_getElem?_getD, List.getElem?_take,
    if_pos hj]

theorem first_qualified_confirms (hold : ℕ) (l : List Gesture) (X : Gesture)
    (i : ℕ) (hi : i < l.length)
    (hgd : l.getD i NONE = X) (htr : hold ≤ trailAt l i)
    (hmin : ∀ j, j < i → ¬(l.getD j NONE = X ∧ hold ≤ trailAt l j))
    (hX : X ≠ NONE) :
    lastConfirmed hold (l.take (i + 1)) = X ∧ changedSpec hold l i = true := by
  have hnc : lastConfirmed hold (l.take i) ≠ X := by
    intro hcl
    have hne : lastConfirmed hold (l.take i) ≠ NONE := by rw [hcl]; exact hX
    obtain ⟨j, hj, hjgd, hjtr⟩ := lastConfirmed_qualified hold (l.take i) hne
    rw [List.length_take] at hj
    have hji : j < i := lt_of_lt_of_le hj (min_le_left _ _)
    rw [getD_take l i j hji] at hjgd
    rw [trailAt_take l i j hji] at hjtr
    exact hmin j hji ⟨by rw [hjgd, hcl], hjtr⟩
  have htake : l.take (i + 1) = l.take i ++ [X] := by
    rw [List.take_succ]
    congr 1
    rw [List.getElem?_eq_getElem hi]
    have : l[i] = X := by rw [← hgd, List.getD_eq_getElem?_getD,
      List.getElem?_eq_getElem hi]; rfl
    rw [this]
    rfl
  constructor
  · rw [htake, lastConfirmed_append_singleton, ← htake, if_pos]
    exact htr
  · unfold changedSpec
    rw [decide_eq_true htr, Bool.true_and, decide_eq_true_eq]
    rw [hgd]
    exact hnc

/-- C1 counterexample: for `X = NONE` the claim fails as stated.  With hold
threshold 2 and raw frames `[NONE, NONE]`, NONE has occurred for 2
consecutive frames at frame index 1 (the first qualified index), but the
machine never reports a change to NONE — the confirmed label is already
NONE from the reset state — so no frame reports `changed = true` with
confirmed label NONE. -/
theorem debounce_none_no_change :
    firstConfirm 2 [NONE, NONE] NONE = none ∧
      firstQualified 2 [NONE, NONE] NONE = some 1 :=
  ⟨by decide, by decide⟩

/-- C1 amended: starting from the reset state, the confirmed label changes to
a label `X` other than NONE (the reset-state confirmed label, to which no
change can be reported) exactly at the first frame index at which `X` has
occurred for `gesture_hold_frames` consecutive frames: the first frame
reporting `changed = true` with confirmed label `X` is precisely the first
frame whose trailing run of `X` reaches the hold threshold, and no frame
before it reports such a change. -/
theorem debounce_first_confirm (hold : ℕ) (l : List Gesture) (X : Gesture)
    (hX : X ≠ NONE) :
    firstConfirm hold l X = firstQualified hold l X := by
  unfold firstConfirm firstQualified
  rw [runOuts_eq_specOuts]
  unfold specOuts
  rw [firstHit_map]
  simp only []
  cases hq : firstHit
      (fun i => decide (l.getD i NONE = X) && decide (hold ≤ trailAt l i))
      (List.range l.length) with
  | none =>
    rw [firstHit_range_none_iff] at hq
    rw [firstHit_range_none_iff]
    intro i hi
    by_cases hcl : lastConfirmed hold (l.take (i + 1)) = X
    · exfalso
      have hne : lastConfirmed hold (l.take (i + 1)) ≠ NONE := by rw [hcl]; exact hX
      obtain ⟨j, hj, hjgd, hjtr⟩ := lastConfirmed_qualified hold (l.take (i + 1)) hne
      rw [List.length_take] at hj
      have hji : j < i + 1 := lt_of_lt_of_le hj (min_le_left _ _)
      have hjl : j < l.length := lt_of_lt_of_le hj (min_le_right _ _)
      rw [getD_take l (i + 1) j hji] at hjgd
      rw [trailAt_take l (i + 1) j hji] at hjtr
      have := hq j hjl
      rw [hjgd, hcl, decide_eq_true rfl, Bool.true_and] at this
      rw [decide_eq_false_iff_not] at this
      exact this hjtr
    · rw [decide_eq_false hcl, Bool.and_false]
  | some i =>
    obtain ⟨hi, hp, hmin⟩ := (firstHit_range_some_iff _ _ _).mp hq
    rw [Bool.and_eq_true, decide_eq_true_eq, decide_eq_true_eq] at hp
    have hmin2 : ∀ j, j < i → ¬(l.getD j NONE = X ∧ hold ≤ trailAt l j) := by
      intro j hj hand
      have := hmin j hj
      rw [decide_eq_true hand.1, decide_eq_true hand.2] at this
      exact absurd this (by simp)
    obtain ⟨hconf, hch⟩ :=
      first_qualified_confirms hold l X i hi hp.1 hp.2 hmin2 hX
    rw [firstHit_range_some_iff]
    refine ⟨hi, by rw [hch, hconf, Bool.true_and, decide_eq_true rfl], ?_⟩
    intro j hj
    by_cases hclj : lastConfirmed hold (l.take (j + 1)) = X
    · exfalso
      have hne : lastConfirmed hold (l.take (j + 1)) ≠ NONE := by rw [hclj]; exact hX
      obtain ⟨k, hk, hkgd, hktr⟩ := lastConfirmed_qualified hold (l.take (j + 1)) hne
      rw [List.length_take] at hk
      have hkj : k < j + 1 := lt_of_lt_of_le hk (min_le_left _ _)
      rw [getD_take l (j + 1) k hkj] at hkgd
      rw [trailAt_take l (j + 1) k hkj] at hktr
      exact hmin2 k (by omega) ⟨by rw [hkgd, hclj], hktr⟩
    · rw [decide_eq_false hclj, Bool.and_false]

/-- Witness for C1 at a concrete input: hold threshold 2, frames
WRITING, WRITING, STOP; the change to WRITING is reported at frame index 1. -/
theorem debounce_first_confirm_witness :
    WRITING ≠ NONE ∧
      firstConfirm 2 [WRITING, WRITING, STOP] WRITING =
        firstQualified 2 [WRITING, WRITING, STOP] WRITING :=
  ⟨by decide, debounce_first_confirm 2 [WRITING, WRITING, STOP] WRITING (by decide)⟩

/-! ## Smoothing library (`src/strokes/stroke_smoothing.py`)

The smoothers call three pieces of external library code that are not part of
this repository: `scipy.signal.savgol_filter`, the pair
`scipy.interpolate.splprep` / `splev`, and `np.exp`.  They are taken as
parameters (`Oracles`), with `none` modelling a raised exception, so every
theorem below holds for an arbitrary behaviour of the externals.  `np.convolve`
is simple enough to embed directly (`convolveFull` / `convolveSame`). -/

structure Oracles : Type where
  /-- `scipy.signal.savgol_filter` on one coordinate axis, given the data,
  the window length and the polynomial order; `none` models an exception. -/
  savgol : List ℚ → ℕ → ℕ → Option (List ℚ)
  /-- `scipy.interpolate.splprep` on the point sequence with smoothing factor
  `s` and degree `k`, returning the fitted parametric curve (the `tck` data
  as the function `splev` evaluates pointwise); `none` models a fit failure. -/
  splfit : List Pt → ℚ → ℕ → Option (ℚ → Pt)
  /-- `np.exp` (transcendental, hence abstract over `ℚ`). -/
  expQ : ℚ → ℚ

/-- `np.convolve(a, v, mode='full')`: length `len a + len v - 1`, entry `k`
is `∑ j, a[k-j] * v[j]` over the indices in range. -/
def convolveFull (a v : List ℚ) : List ℚ :=
  (List.range (a.length + v.length - 1)).map fun k =>
    ((List.range v.length).map fun j =>
      if j ≤ k ∧ k - j < a.length then a.getD (k - j) 0 * v.getD j 0 else 0).sum

/-- `np.convolve(a, v, mode='same')`: the centered slice of the full
convolution, of length `max (len a) (len v)`. -/
def convolveSame (a v : List ℚ) : List ℚ :=
  ((convolveFull a v).drop ((min a.length v.length - 1) / 2)).take
    (max a.length v.length)

/-- `StrokeSmoother.moving_average_smooth`.  `max(0, i - window_size // 2)`
is natural subtraction here; the slice mean is taken per axis and the result
cast with `astype(int)` (truncation toward zero). -/
def moving_average_smooth (points : List Pt) (window_size : ℕ := 5) : List Pt :=
  if points.length < window_size then points
  else
    (List.range points.length).map fun i =>
      let start_idx := i - window_size / 2
      let end_idx := min points.length (i + window_size / 2 + 1)
      let slice := (points.drop start_idx).take (end_idx - start_idx)
      let n : ℚ := slice.length
      truncPt ((slice.map Prod.fst).sum / n, (slice.map Prod.snd).sum / n)

/-- `StrokeSmoother.gaussian_smooth`.  The window is `int(6 * sigma)` bumped
to odd; the kernel is a normalized sampled Gaussian (via `np.exp`); each axis
is convolved with `mode='same'`.  The result of `np.convolve(col, kernel,
'same')` has length `max(len col, len kernel)`; numpy raises a broadcast
`ValueError` on the column assignment `smoothed[:, dim] = ...` whenever that
length differs from the input length (in particular whenever
`3 ≤ len points < window`), modelled by `none`. -/
def gaussian_smooth (expQ : ℚ → ℚ) (points : List Pt) (sigma : ℚ := 2) :
    Option (List Pt) :=
  if points.length < 3 then some points
  else
    let ws : ℤ := truncQ (6 * sigma)
    let window_size : ℤ := if ws % 2 == 0 then ws + 1 else ws
    let wn : ℕ := window_size.toNat
    let xs : List ℚ := (List.range wn).map fun i => (i : ℚ) - ((wn / 2 : ℕ) : ℚ)
    let kernel := xs.map fun x => expQ (-(1 / 2) * (x / sigma) ^ 2)
    let ksum := kernel.sum
    let kernel := kernel.map (· / ksum)
    let c0 := convolveSame (points.map Prod.fst) kernel
    let c1 := convolveSame (points.map Prod.snd) kernel
    if c0.length = points.length ∧ c1.length = points.length then
      some ((c0.zip c1).map truncPt)
    else none

/-- `StrokeSmoother.savitzky_golay_smooth`.  The `try` block around the two
`savgol_filter` calls (including the column assignments) degrades to
`moving_average_smooth(points)` with its default window on any exception. -/
def savitzky_golay_smooth (sg : List ℚ → ℕ → ℕ → Option (List ℚ))
    (points : List Pt) (window_length : ℕ := 11) (polyorder : ℕ := 3) :
    List Pt :=
  if points.length < window_length then points
  else
    let wl1 := if window_length % 2 == 0 then window_length + 1 else window_length
    let wl2 := max wl1 (polyorder + 2)
    if points.length < wl2 then
      moving_average_smooth points (points.length / 2)
    else
      match sg (points.map Prod.fst) wl2 polyorder,
          sg (points.map Prod.snd) wl2 polyorder with
      | some c0, some c1 =>
        if c0.length = points.length ∧ c1.length = points.length then
          (c0.zip c1).map truncPt
        else moving_average_smooth points 5
      | _, _ => moving_average_smooth points 5

/-- `np.linspace 0 1 n`: `n` evenly spaced parameter values. -/
def linspace (n : ℕ) : List ℚ :=
  (List.range n).map fun i => if n = 1 then 0 else (i : ℚ) / ((n : ℚ) - 1)

/-- `StrokeSmoother.spline_smooth`.  On a fit failure the `except` block
falls back to `gaussian_smooth` with its default sigma; an exception raised
inside that fallback propagates. -/
def spline_smooth (O : Oracles) (points : List Pt) (smoothing_factor : ℚ := 0)
    (num_points : Option ℕ := none) : Option (List Pt) :=
  if points.length < 4 then some points
  else
    match O.splfit points smoothing_factor (min 3 (points.length - 1)) with
    | some curve =>
      let np := num_points.getD points.length
      some ((linspace np).map fun u => truncPt (curve u))
    | none => gaussian_smooth O.expQ points 2

/-- Dot product of two rational vectors. -/
def dotQ (a b : List ℚ) : ℚ := (List.zipWith (· * ·) a b).sum

/-- A small dense rational matrix, as its list of rows (a numpy 2-D array). -/
abbrev MatQ : Type := List (List ℚ)

/-- Matrix transpose. -/
def matTranspose (A : MatQ) : MatQ :=
  (List.range (A.headD []).length).map fun j => A.map fun row => row.getD j 0

/-- Matrix product (`@` in the source). -/
def matMul (A B : MatQ) : MatQ :=
  let Bt := matTranspose B
  A.map fun row => Bt.map fun col => dotQ row col

/-- Entrywise matrix sum. -/
def matAdd (A B : MatQ) : MatQ := List.zipWith (List.zipWith (· + ·)) A B

/-- Entrywise matrix difference. -/
def matSub (A B : MatQ) : MatQ := List.zipWith (List.zipWith (· - ·)) A B

/-- Matrix-vector product (`@` against a 1-D array). -/
def matVec (A : MatQ) (v : List ℚ) : List ℚ := A.map fun row => dotQ row v

/-- Entrywise vector sum. -/
def vecAdd (a b : List ℚ) : List ℚ := List.zipWith (· + ·) a b

/-- Entrywise vector difference. -/
def vecSub (a b : List ℚ) : List ℚ := List.zipWith (· - ·) a b

/-- `np.eye n * c`. -/
def eyeQ (n : ℕ) (c : ℚ) : MatQ :=
  (List.range n).map fun i => (List.range n).map fun j => if i = j then c else 0

/-- Exact 2-by-2 matrix inverse, as computed by `np.linalg.inv` on the
innovation covariance (defined whenever the determinant is nonzero; the
innovation covariance of this filter is positive definite in exact
arithmetic). -/
def inv2 (S : MatQ) : MatQ :=
  match S with
  | [[a, b], [c, d]] =>
    let det := a * d - b * c
    [[d / det, -b / det], [-c / det, a / det]]
  | _ => []

/-- One predict-then-update iteration of `kalman_smooth`'s loop: the new
state, covariance and output list. -/
def kalman_step (process_variance measurement_variance : ℚ)
    (acc : List ℚ × MatQ × List Pt) (point : Pt) : List ℚ × MatQ × List Pt :=
  let F : MatQ := [[1, 0, 1, 0], [0, 1, 0, 1], [0, 0, 1, 0], [0, 0, 0, 1]]
  let H : MatQ := [[1, 0, 0, 0], [0, 1, 0, 0]]
  let Q : MatQ := eyeQ 4 process_variance
  let R : MatQ := eyeQ 2 measurement_variance
  let state := matVec F acc.1
  let covariance := matAdd (matMul (matMul F acc.2.1) (matTranspose F)) Q
  let measurement : List ℚ := [point.1, point.2]
  let y := vecSub measurement (matVec H state)
  let S := matAdd (matMul (matMul H covariance) (matTranspose H)) R
  let K := matMul (matMul covariance (matTranspose H)) (inv2 S)
  let state := vecAdd state (matVec K y)
  let covariance := matMul (matSub (eyeQ 4 1) (matMul K H)) covariance
  (state, covariance,
    acc.2.2 ++ [((truncQ (state.getD 0 0) : ℚ), (truncQ (state.getD 1 0) : ℚ))])

/-- `StrokeSmoother.kalman_smooth`: constant-velocity 4-state filter with the
fixed matrices of the source (initial state `[x0, y0, 0, 0]`, initial
covariance `eye(4) * 1000`), predict-then-update per point, each filtered
position truncated to int. -/
def kalman_smooth (points : List Pt) (process_variance : ℚ := 1 / 100000)
    (measurement_variance : ℚ := 1 / 10) : List Pt :=
  if points.length < 2 then points
  else
    let p0 := points.headD (0, 0)
    (points.foldl (kalman_step process_variance measurement_variance)
      ([p0.1, p0.2, 0, 0], eyeQ 4 1000, [])).2.2

/-- Helper of `remove_duplicates`: walk the remaining points keeping those at
distance at least `min_distance` from the last kept point. -/
def removeDupAux (min_distance : ℚ) (last_point : Pt) : List Pt → List Pt
  | [] => []
  | point :: rest =>
    if sqrtGe (distSq point last_point) min_distance then
      point :: removeDupAux min_distance point rest
    else
      removeDupAux min_distance last_point rest

/-- `StrokeSmoother.remove_duplicates`. -/
def remove_duplicates (points : List Pt) (min_distance : ℚ := 2) : List Pt :=
  if points.length < 2 then points
  else
    match points with
    | [] => []
    | p :: rest => p :: removeDupAux min_distance p rest

/-- Square of `perpendicular_distance` from `douglas_peucker_simplify`
(point distance when the chord endpoints coincide, otherwise the
point-to-line formula `|num| / sqrt(den)`). -/
def perpendicular_distance_sq (point line_start line_end : Pt) : ℚ :=
  if line_start = line_end then distSq point line_start
  else
    ((line_end.2 - line_start.2) * point.1 - (line_end.1 - line_start.1) * point.2 +
        line_end.1 * line_start.2 - line_end.2 * line_start.1) ^ 2 /
      ((line_end.2 - line_start.2) ^ 2 + (line_end.1 - line_start.1) ^ 2)

/-- The maximum-deviation scan of `simplify_recursive`: for `i` from 1 to
`len - 2`, track the largest (squared) perpendicular distance from the chord
between the first and last point, and its index; initial accumulator
`(0, 0)`. -/
def dpMaxLoop (pts : List Pt) : ℚ × ℕ :=
  (List.range (pts.length - 2)).foldl
    (fun acc k =>
      let i := k + 1
      let d := perpendicular_distance_sq (pts.getD i (0, 0)) (pts.getD 0 (0, 0))
        (pts.getLast?.getD (0, 0))
      if acc.1 < d then (d, i) else acc)
    (0, 0)

/-- `simplify_recursive`, with an explicit fuel bounding the recursion depth
(the Python recursion is unbounded; `none` models non-termination, which
Python surfaces as `RecursionError`).  For `epsilon ≥ 0` the split index is
always at least 1, both fragments are strictly shorter, and fuel
`length + 1` never runs out. -/
def simplifyRec (epsilon : ℚ) : ℕ → List Pt → Option (List Pt)
  | 0, _ => none
  | fuel + 1, pts =>
    if pts.length < 3 then some pts
    else
      let m := dpMaxLoop pts
      if sqrtGt m.1 epsilon then
        match simplifyRec epsilon fuel (pts.take (m.2 + 1)),
            simplifyRec epsilon fuel (pts.drop m.2) with
        | some left, some right => some (left.dropLast ++ right)
        | _, _ => none
      else
        some [pts.headD (0, 0), pts.getLast?.getD (0, 0)]

/-- `StrokeSmoother.douglas_peucker_simplify`. -/
def douglas_peucker_simplify (points : List Pt) (epsilon : ℚ := 2) :
    Option (List Pt) :=
  simplifyRec epsilon (points.length + 1) points

/-- The five method names of the `smoothing_methods` dispatch table. -/
inductive MethodName : Type where
  | moving_average
  | gaussian
  | savitzky_golay
  | spline
  | kalman
deriving DecidableEq

/-- A smoothing method together with the keyword arguments of one call, as a
closed tagged variant (the source dispatches by name through the
`smoothing_methods` dict and forwards `**kwargs`). -/
inductive MethodCall : Type where
  | moving_average (window_size : ℕ)
  | gaussian (sigma : ℚ)
  | savitzky_golay (window_length polyorder : ℕ)
  | spline (smoothing_factor : ℚ) (num_points : Option ℕ)
  | kalman (process_variance measurement_variance : ℚ)

/-- Dispatch of `self.smoothing_methods[method](points, **kwargs)` for a call
whose keyword arguments match the selected method. -/
def applyMethod (O : Oracles) (points : List Pt) : MethodCall → Option (List Pt)
  | .moving_average w => some (moving_average_smooth points w)
  | .gaussian sigma => gaussian_smooth O.expQ points sigma
  | .savitzky_golay w p => some (savitzky_golay_smooth O.savgol points w p)
  | .spline s n => spline_smooth O points s n
  | .kalman pv mv => some (kalman_smooth points pv mv)

/-- `StrokeSmoother.smooth_stroke`: early return under 2 points, duplicate
removal with its default minimum distance, early return again, then method
dispatch. -/
def smooth_stroke (O : Oracles) (points : List Pt) (method : MethodCall) :
    Option (List Pt) :=
  if points.length < 2 then some points
  else
    let points := remove_duplicates points
    if points.length < 2 then some points
    else applyMethod O points method

/-- `StrokeSmoother.multi_pass_smooth` with its default chain
kalman → savitzky-golay → gaussian; a pass only runs on at least 2 points,
and an exception in any pass aborts the whole chain (`none`). -/
def multi_pass_smooth (O : Oracles) (points : List Pt)
    (methods : List MethodCall :=
      [.kalman (1 / 100000) (1 / 10), .savitzky_golay 7 3, .gaussian (3 / 2)]) :
    Option (List Pt) :=
  methods.foldl
    (fun acc m =>
      match acc with
      | none => none
      | some result =>
        if 2 ≤ result.length then smooth_stroke O result m else some result)
    (some points)

/-! ## Stroke tracker (`src/strokes/stroke_tracker.py`)

State-passing embedding.  `time.time()` is passed in as an explicit `now`
argument where the source reads the clock.  Operations that can raise
(through the smoothing calls) return `Except`, the `error` payload being the
tracker state at the moment the exception escapes (Python leaves the partial
mutations in place). -/

/-- One completed stroke record (`stroke_data` dict in `end_stroke`). -/
structure Stroke : Type where
  points : List Pt
  raw_points : List Pt
  timestamp : Option ℚ
  duration : ℚ
  point_count : ℕ
  smoothed_count : ℕ
deriving DecidableEq

/-- The mutable state of `StrokeTracker` (field order as in `__init__`; the
stateless `StrokeSmoother` instance is replaced by the `Oracles` parameter
of each operation). -/
structure StrokeTracker : Type where
  current_stroke : List Pt
  current_stroke_raw : List Pt
  all_strokes : List Stroke
  is_tracking : Bool
  min_distance_threshold : ℚ
  last_point : Option Pt
  stroke_start_time : Option ℚ
  enable_smoothing : Bool
  smoothing_method : MethodName
  real_time_smooth : Bool
deriving DecidableEq

/-- `StrokeTracker.__init__` with its defaults. -/
def StrokeTracker.init (min_distance_threshold : ℚ := 5)
    (enable_smoothing : Bool := true)
    (smoothing_method : MethodName := .savitzky_golay) : StrokeTracker :=
  { current_stroke := []
    current_stroke_raw := []
    all_strokes := []
    is_tracking := false
    min_distance_threshold := min_distance_threshold
    last_point := none
    stroke_start_time := none
    enable_smoothing := enable_smoothing
    smoothing_method := smoothing_method
    real_time_smooth := true }

/-- `StrokeTracker.start_stroke`. -/
def start_stroke (s : StrokeTracker) (point : Pt) (now : ℚ) : StrokeTracker :=
  { s with
      current_stroke := [point]
      current_stroke_raw := [point]
      is_tracking := true
      last_point := some point
      stroke_start_time := some now }

/-- `smooth_stroke` as invoked by `StrokeTracker._update_smoothed_stroke`,
which passes `window_length` and `polyorder` keyword arguments together with
the configured method name.  The length checks and the duplicate-removal pass
run before the dispatch, exactly as in the source; at the dispatch
`self.smoothing_methods[method](points, **kwargs)` only
`savitzky_golay_smooth` accepts those keywords, so every other method raises
`TypeError` there (modelled by `none`). -/
def smooth_stroke_rt (O : Oracles) (points : List Pt) (method : MethodName)
    (window_length polyorder : ℕ) : Option (List Pt) :=
  if points.length < 2 then some points
  else
    let points := remove_duplicates points
    if points.length < 2 then some points
    else
      match method with
      | .savitzky_golay =>
        some (savitzky_golay_smooth O.savgol points window_length polyorder)
      | _ => none

/-- `StrokeTracker._update_smoothed_stroke`: the new value of
`current_stroke` (`none` models an exception escaping the smoothing call). -/
def update_smoothed_stroke (O : Oracles) (s : StrokeTracker) : Option (List Pt) :=
  if s.enable_smoothing && s.real_time_smooth &&
      decide (3 < s.current_stroke_raw.length) then
    smooth_stroke_rt O s.current_stroke_raw s.smoothing_method
      (min 7 s.current_stroke_raw.length) (min 3 (s.current_stroke_raw.length - 1))
  else some s.current_stroke_raw

/-- `StrokeTracker.add_point`.  On acceptance the raw point and
`last_point` are written before `_update_smoothed_stroke` runs, so on an
exception there those mutations persist in the `error` state. -/
def add_point (O : Oracles) (s : StrokeTracker) (point : Pt) :
    Except StrokeTracker (Bool × StrokeTracker) :=
  if s.is_tracking = false then .ok (false, s)
  else
    match s.last_point with
    | none =>
      let s1 := { s with
        current_stroke_raw := s.current_stroke_raw ++ [point]
        last_point := some point }
      match update_smoothed_stroke O s1 with
      | some cs => .ok (true, { s1 with current_stroke := cs })
      | none => .error s1
    | some lp =>
      if sqrtGe (distSq point lp) s.min_distance_threshold then
        let s1 := { s with
          current_stroke_raw := s.current_stroke_raw ++ [point]
          last_point := some point }
        match update_smoothed_stroke O s1 with
        | some cs => .ok (true, { s1 with current_stroke := cs })
        | none => .error s1
      else .ok (false, s)

/-- `StrokeTracker.end_stroke`.  `is_tracking` is cleared before the final
smoothing pass, so on an exception there the `error` state has tracking off
and the stroke buffers untouched.  `duration` reads the start time recorded
by `start_stroke` (every tracking state has one). -/
def end_stroke (O : Oracles) (s : StrokeTracker) (now : ℚ) :
    Except StrokeTracker (Option (List Pt) × StrokeTracker) :=
  if s.is_tracking = false then .ok (none, s)
  else
    let s1 := { s with is_tracking := false }
    if 3 ≤ s1.current_stroke_raw.length then
      match
        (if s1.enable_smoothing then multi_pass_smooth O s1.current_stroke_raw
         else some s1.current_stroke_raw) with
      | none => .error s1
      | some smoothed_points =>
        let stroke_data : Stroke :=
          { points := smoothed_points
            raw_points := s1.current_stroke_raw
            timestamp := s1.stroke_start_time
            duration := now - s1.stroke_start_time.getD 0
            point_count := s1.current_stroke_raw.length
            smoothed_count := smoothed_points.length }
        .ok (some smoothed_points,
          { s1 with
              all_strokes := s1.all_strokes ++ [stroke_data]
              current_stroke := []
              current_stroke_raw := [] })
    else
      .ok (none, { s1 with current_stroke := [], current_stroke_raw := [] })

/-- `StrokeTracker.clear_all_strokes`. -/
def clear_all_strokes (s : StrokeTracker) : StrokeTracker :=
  { s with
      current_stroke := []
      current_stroke_raw := []
      all_strokes := []
      is_tracking := false
      last_point := none }

/-! ## Claims about the stroke tracker and smoothing library -/

/-- C3 counterexample: the very first `add_point` after `start_stroke` is
not always accepted.  `start_stroke` records the start point as
`last_point`, so the `last_point is None` always-accept branch is
unreachable and the first point is distance-gated like any other: after
`start_stroke` at `(0, 0)` with the default threshold 5, adding `(1, 0)`
(distance 1) returns `False` and appends nothing. -/
theorem first_add_point_rejected :
    add_point ⟨fun _ _ _ => none, fun _ _ _ => none, fun _ => 1⟩
      (start_stroke (StrokeTracker.init) (0, 0) 0) (1, 0) =
      .ok (false, start_stroke (StrokeTracker.init) (0, 0) 0) := by
  with_unfolding_all rfl

/-- C3 amended: the first `add_point q` after `start_stroke p` is accepted
iff the euclidean distance from `q` to `p` is at least the tracker's
minimum distance threshold, exactly like every later point. -/
theorem first_add_point_gated (O : Oracles) (s : StrokeTracker) (p q : Pt)
    (t : ℚ) :
    add_point O (start_stroke s p t) q =
      .ok (sqrtGe (distSq q p) s.min_distance_threshold,
        if sqrtGe (distSq q p) s.min_distance_threshold then
          { start_stroke s p t with
              current_stroke := [p, q]
              current_stroke_raw := [p, q]
              last_point := some q }
        else start_stroke s p t) := by
  unfold add_point start_stroke update_smoothed_stroke
  by_cases h : sqrtGe (distSq q p) s.min_distance_threshold <;> simp [h]

/-- C4: `add_point` while tracking does not always return; with any
configured smoothing method other than `savitzky_golay` (all reachable via
`set_smoothing_method`), the accepted point that brings the raw stroke past
3 points makes `_update_smoothed_stroke` forward `window_length` /
`polyorder` keyword arguments to a method that rejects them, raising
`TypeError` after the point was appended, instead of returning `True`. -/
theorem add_point_kalman_type_error (O : Oracles) :
    add_point O
      { StrokeTracker.init with
          smoothing_method := .kalman
          is_tracking := true
          current_stroke := [(0, 0), (10, 0), (20, 0)]
          current_stroke_raw := [(0, 0), (10, 0), (20, 0)]
          last_point := some (20, 0)
          stroke_start_time := some 0 } (30, 0) =
      .error
        { StrokeTracker.init with
            smoothing_method := .kalman
            is_tracking := true
            current_stroke := [(0, 0), (10, 0), (20, 0)]
            current_stroke_raw := [(0, 0), (10, 0), (20, 0), (30, 0)]
            last_point := some (30, 0)
            stroke_start_time := some 0 } := by
  with_unfolding_all rfl

/-- C5 counterexample: called with 5 points and the default configured
window 11, `savitzky_golay_smooth` returns the input unchanged; it does not
fall back to a moving average with window `5 / 2 = 2`, whose result differs. -/
theorem savgol_short_input_unchanged :
    savitzky_golay_smooth (fun _ _ _ => none)
        [(0, 0), (10, 0), (0, 0), (10, 0), (0, 0)] 11 3 =
      [(0, 0), (10, 0), (0, 0), (10, 0), (0, 0)] ∧
    moving_average_smooth [(0, 0), (10, 0), (0, 0), (10, 0), (0, 0)]
        ([(0, 0), (10, 0), (0, 0), (10, 0), (0, 0)].length / 2) ≠
      [(0, 0), (10, 0), (0, 0), (10, 0), (0, 0)] := by
  constructor
  · rfl
  · intro h
    have h5 : moving_average_smooth [(0, 0), (10, 0), (0, 0), (10, 0), (0, 0)] 2 =
        [(5, 0), (3, 0), (6, 0), (3, 0), (5, 0)] := by with_unfolding_all rfl
    have h25 : moving_average_smooth [(0, 0), (10, 0), (0, 0), (10, 0), (0, 0)]
        ([(0, 0), (10, 0), (0, 0), (10, 0), (0, 0)].length / 2) =
        [(5, 0), (3, 0), (6, 0), (3, 0), (5, 0)] := by with_unfolding_all rfl
    rw [h25] at h
    simp [Prod.ext_iff] at h

/-- C5 amended: with fewer input points than the configured window the input
is returned unchanged; the moving-average fallback with window
`floor(n / 2)` fires exactly when `n` is at least the configured window but
less than the effective window (the configured window rounded up to odd and
raised to at least `polyorder + 2`). -/
theorem savgol_fallback_policy (sg : List ℚ → ℕ → ℕ → Option (List ℚ))
    (points : List Pt) (w p : ℕ) :
    (points.length < w → savitzky_golay_smooth sg points w p = points) ∧
    (w ≤ points.length →
      points.length < max (if w % 2 == 0 then w + 1 else w) (p + 2) →
      savitzky_golay_smooth sg points w p =
        moving_average_smooth points (points.length / 2)) := by
  unfold savitzky_golay_smooth
  constructor
  · intro h
    rw [if_pos h]
  · intro h1 h2
    rw [if_neg (by omega), if_pos h2]

/-- Witness for C5 amended at a concrete input: one point with the default
window 11 is returned unchanged. -/
theorem savgol_fallback_policy_witness :
    ([((0 : ℚ), (0 : ℚ))].length < 11) ∧
      savitzky_golay_smooth (fun _ _ _ => none) [(0, 0)] 11 3 = [(0, 0)] :=
  ⟨by decide,
    (savgol_fallback_policy (fun _ _ _ => none) [(0, 0)] 11 3).1 (by decide)⟩

set_option maxRecDepth 10000 in
/-- C6: `end_stroke` on a tracked stroke of exactly 3 raw points (the
smallest count the spec says must be stored) raises instead of storing a
stroke: the gaussian pass of `multi_pass_smooth` convolves 3 points with its
9-point kernel, `np.convolve(..., 'same')` returns 9 values, and the column
assignment raises a broadcast `ValueError`; the exception escapes after
`is_tracking` was cleared, nothing is appended and nothing returned. -/
theorem end_stroke_three_points_crashes (O : Oracles) :
    end_stroke O
      { StrokeTracker.init with
          is_tracking := true
          current_stroke := [(0, 0), (10, 0), (20, 0)]
          current_stroke_raw := [(0, 0), (10, 0), (20, 0)]
          last_point := some (20, 0)
          stroke_start_time := some 0 } 1 =
      .error
        { StrokeTracker.init with
            is_tracking := false
            current_stroke := [(0, 0), (10, 0), (20, 0)]
            current_stroke_raw := [(0, 0), (10, 0), (20, 0)]
            last_point := some (20, 0)
            stroke_start_time := some 0 } := by
  with_unfolding_all rfl

/-- Auxiliary for C7: re-filtering an already filtered tail changes
nothing. -/
theorem removeDupAux_idem (d : ℚ) (rest : List Pt) : ∀ last : Pt,
    removeDupAux d last (removeDupAux d last rest) = removeDupAux d last rest := by
  induction rest with
  | nil => intro last; rfl
  | cons q r ih =>
    intro last
    by_cases h : sqrtGe (distSq q last) d <;> simp [removeDupAux, h, ih]

/-- C7: `remove_duplicates` keeps the first point (its output starts where
the input starts) and is idempotent: applying it twice yields the same
result as applying it once, for every point list and every minimum
distance. -/
theorem remove_duplicates_idempotent (points : List Pt) (d : ℚ) :
    remove_duplicates (remove_duplicates points d) d =
      remove_duplicates points d ∧
    (remove_duplicates points d).head? = points.head? := by
  match points with
  | [] => exact ⟨rfl, rfl⟩
  | [p] => exact ⟨rfl, rfl⟩
  | p :: q :: rest =>
    have hinner : remove_duplicates (p :: q :: rest) d =
        p :: removeDupAux d p (q :: rest) := by
      unfold remove_duplicates
      rw [if_neg (by simp)]
    rw [hinner]
    refine ⟨?_, rfl⟩
    unfold remove_duplicates
    by_cases haux : (p :: removeDupAux d p (q :: rest)).length < 2
    · rw [if_pos haux]
    · rw [if_neg haux]
      show p :: removeDupAux d p (removeDupAux d p (q :: rest)) =
        p :: removeDupAux d p (q :: rest)
      rw [removeDupAux_idem d (q :: rest) p]

/-- C9: `end_stroke` on a tracker that is not tracking returns `None` and
leaves the whole state unchanged. -/
theorem end_stroke_not_tracking (O : Oracles) (s : StrokeTracker) (now : ℚ)
    (h : s.is_tracking = false) :
    end_stroke O s now = .ok (none, s) := by
  unfold end_stroke
  rw [if_pos h]

/-- Witness for C9 at a concrete input: the freshly initialized tracker. -/
theorem end_stroke_not_tracking_witness :
    (StrokeTracker.init).is_tracking = false ∧
      end_stroke ⟨fun _ _ _ => none, fun _ _ _ => none, fun _ => 1⟩
        (StrokeTracker.init) 0 = .ok (none, StrokeTracker.init) :=
  ⟨rfl, end_stroke_not_tracking ⟨fun _ _ _ => none, fun _ _ _ => none, fun _ => 1⟩
    (StrokeTracker.init) 0 rfl⟩

/-- C10: the smoothers do not all preserve the point count on every path:
`gaussian_smooth` on 3 points with its default `sigma = 2` builds a 13-point
kernel, `np.convolve(..., mode='same')` returns `max(3, 13) = 13` values,
and the assignment into the 3-row output array raises a broadcast
`ValueError` (no list of any length is returned), for every behaviour of
`np.exp`. -/
theorem gaussian_smooth_three_points_crashes (expQ : ℚ → ℚ) :
    gaussian_smooth expQ [(0, 0), (1, 1), (2, 2)] 2 = none := by
  with_unfolding_all rfl

/-! ## Douglas-Peucker simplification (claim C8) -/

theorem distSq_nonneg (p q : Pt) : 0 ≤ distSq p q :=
  add_nonneg (sq_nonneg _) (sq_nonneg _)

theorem perpendicular_distance_sq_nonneg (p a b : Pt) :
    0 ≤ perpendicular_distance_sq p a b := by
  unfold perpendicular_distance_sq
  by_cases h : a = b
  · rw [if_pos h]
    exact distSq_nonneg p a
  · rw [if_neg h]
    exact div_nonneg (sq_nonneg _) (add_nonneg (sq_nonneg _) (sq_nonneg _))

/-- The deviation of `pts[i]` (for interior `i`) from the chord between the
first and the last point, squared. -/
def chordDev (pts : List Pt) (i : ℕ) : ℚ :=
  perpendicular_distance_sq (pts.getD i (0, 0)) (pts.getD 0 (0, 0))
    (pts.getLast?.getD (0, 0))

theorem dpMaxLoop_aux (pts : List Pt) (n : ℕ) :
    0 ≤ ((List.range n).foldl
        (fun acc k =>
          let i := k + 1
          let d := perpendicular_distance_sq (pts.getD i (0, 0)) (pts.getD 0 (0, 0))
            (pts.getLast?.getD (0, 0))
          if acc.1 < d then (d, i) else acc) ((0 : ℚ), (0 : ℕ))).1 ∧
      (0 < ((List.range n).foldl
        (fun acc k =>
          let i := k + 1
          let d := perpendicular_distance_sq (pts.getD i (0, 0)) (pts.getD 0 (0, 0))
            (pts.getLast?.getD (0, 0))
          if acc.1 < d then (d, i) else acc) ((0 : ℚ), (0 : ℕ))).1 →
        1 ≤ ((List.range n).foldl
        (fun acc k =>
          let i := k + 1
          let d := perpendicular_distance_sq (pts.getD i (0, 0)) (pts.getD 0 (0, 0))
            (pts.getLast?.getD (0, 0))
          if acc.1 < d then (d, i) else acc) ((0 : ℚ), (0 : ℕ))).2 ∧
        ((List.range n).foldl
        (fun acc k =>
          let i := k + 1
          let d := perpendicular_distance_sq (pts.getD i (0, 0)) (pts.getD 0 (0, 0))
            (pts.getLast?.getD (0, 0))
          if acc.1 < d then (d, i) else acc) ((0 : ℚ), (0 : ℕ))).2 ≤ n) ∧
      ∀ k, k < n → chordDev pts (k + 1) ≤ ((List.range n).foldl
        (fun acc k =>
          let i := k + 1
          let d := perpendicular_distance_sq (pts.getD i (0, 0)) (pts.getD 0 (0, 0))
            (pts.getLast?.getD (0, 0))
          if acc.1 < d then (d, i) else acc) ((0 : ℚ), (0 : ℕ))).1 := by
  induction n with
  | zero =>
    refine ⟨le_refl 0, fun h => absurd h (by simp), fun k hk => absurd hk (by omega)⟩
  | succ n ih =>
    obtain ⟨ih1, ih2, ih3⟩ := ih
    rw [List.range_succ, List.foldl_append, List.foldl_cons, List.foldl_nil]
    by_cases hlt : ((List.range n).foldl
        (fun acc k =>
          let i := k + 1
          let d := perpendicular_distance_sq (pts.getD i (0, 0)) (pts.getD 0 (0, 0))
            (pts.getLast?.getD (0, 0))
          if acc.1 < d then (d, i) else acc) ((0 : ℚ), (0 : ℕ))).1 <
        perpendicular_distance_sq (pts.getD (n + 1) (0, 0)) (pts.getD 0 (0, 0))
          (pts.getLast?.getD (0, 0))
    · simp only [hlt, if_true]
      refine ⟨le_of_lt (lt_of_le_of_lt ih1 hlt), fun _ => ⟨by omega, by omega⟩, ?_⟩
      intro k hk
      rcases Nat.lt_succ_iff_lt_or_eq.mp hk with hk2 | hk2
      · exact le_of_lt (lt_of_le_of_lt (ih3 k hk2) hlt)
      · subst hk2
        exact le_refl _
    · simp only [hlt, if_false]
      refine ⟨ih1, fun h => ⟨(ih2 h).1, le_trans (ih2 h).2 (by omega)⟩, ?_⟩
      intro k hk
      rcases Nat.lt_succ_iff_lt_or_eq.mp hk with hk2 | hk2
      · exact ih3 k hk2
      · subst hk2
        exact le_of_not_lt hlt

theorem dpMaxLoop_spec (pts : List Pt) :
    0 ≤ (dpMaxLoop pts).1 ∧
      (0 < (dpMaxLoop pts).1 →
        1 ≤ (dpMaxLoop pts).2 ∧ (dpMaxLoop pts).2 ≤ pts.length - 2) ∧
      ∀ i, 1 ≤ i → i ≤ pts.length - 2 → chordDev pts i ≤ (dpMaxLoop pts).1 := by
  have h := dpMaxLoop_aux pts (pts.length - 2)
  refine ⟨h.1, h.2.1, ?_⟩
  intro i h1 h2
  have hk : i - 1 < pts.length - 2 := by omega
  have := h.2.2 (i - 1) hk
  rwa [show i - 1 + 1 = i by omega] at this

/-- An adjacent pair (a two-element infix) survives appending on the
right. -/
theorem infix_append_right {ab l : List Pt} (r : List Pt)
    (h : ab.IsInfix l) : ab.IsInfix (l ++ r) := by
  obtain ⟨s, t, hst⟩ := h
  exact ⟨s, t ++ r, by rw [← hst]; simp⟩

/-- An adjacent pair (a two-element infix) survives prepending on the
left. -/
theorem infix_append_left {ab r : List Pt} (l : List Pt)
    (h : ab.IsInfix r) : ab.IsInfix (l ++ r) := by
  obtain ⟨s, t, hst⟩ := h
  exact ⟨l ++ s, t, by rw [← hst]; simp⟩

theorem sublist_tail_of_cons_sublist_cons {a b : Pt} {t r : List Pt}
    (h : List.Sublist (a :: t) (b :: r)) : List.Sublist t r := by
  cases h with
  | cons _ h2 => exact (List.sublist_cons_self a t).trans h2
  | cons₂ _ h2 => exact h2

theorem simplifyRec_spec (epsilon : ℚ) (heps : 0 ≤ epsilon) :
    ∀ (fuel : ℕ) (pts : List Pt), pts.length < fuel →
      ∃ out, simplifyRec epsilon fuel pts = some out ∧
        out.Sublist pts ∧
        out.head? = pts.head? ∧
        out.getLast? = pts.getLast? ∧
        ∀ p ∈ pts, p ∉ out →
          ∃ a b, List.IsInfix [a, b] out ∧
            perpendicular_distance_sq p a b ≤ epsilon ^ 2 := by
  intro fuel
  induction fuel with
  | zero => intro pts h; omega
  | succ fuel ih =>
    intro pts hlen
    by_cases h3 : pts.length < 3
    · refine ⟨pts, ?_, List.Sublist.refl pts, rfl, rfl, ?_⟩
      · unfold simplifyRec
        rw [if_pos h3]
      · intro p hp hnp
        exact absurd hp hnp
    · push_neg at h3
      obtain ⟨hm0, hmIdx, hmMax⟩ := dpMaxLoop_spec pts
      have hlen2 : pts.length ≤ fuel := by omega
      by_cases hgt : sqrtGt (dpMaxLoop pts).1 epsilon
      · -- the maximum deviation exceeds epsilon: split at the max index
        have hlt : epsilon ^ 2 < (dpMaxLoop pts).1 := by
          unfold sqrtGt at hgt
          rcases of_decide_eq_true hgt with h | h
          · exact absurd h (not_lt.mpr heps)
          · exact h
        have hpos : 0 < (dpMaxLoop pts).1 :=
          lt_of_le_of_lt (pow_nonneg heps 2) hlt
        obtain ⟨hm1, hm2⟩ := hmIdx hpos
        set m := (dpMaxLoop pts).2 with hmdef
        have hmlt : m < pts.length := by omega
        have hlenT : (pts.take (m + 1)).length < fuel := by
          rw [List.length_take]; omega
        have hlenD : (pts.drop m).length < fuel := by
          rw [List.length_drop]; omega
        obtain ⟨left, hLeq, hLsub, hLhead, hLlast, hLdev⟩ := ih (pts.take (m + 1)) hlenT
        obtain ⟨right, hReq, hRsub, hRhead, hRlast, hRdev⟩ := ih (pts.drop m) hlenD
        have hgetm : pts.getD m (0, 0) = pts[m] := List.getD_eq_getElem pts (0, 0) hmlt
        have htakehead : (pts.take (m + 1)).head? = pts.head? := by
          cases pts with
          | nil => rfl
          | cons a t => rfl
        have htakelast : (pts.take (m + 1)).getLast? = some (pts.getD m (0, 0)) := by
          rw [List.take_succ, List.getElem?_eq_getElem hmlt]
          rw [hgetm]
          simp only [Option.toList_some]
          exact List.getLast?_concat _
        have hdrophead : (pts.drop m).head? = some (pts.getD m (0, 0)) := by
          rw [List.head?_drop, List.getElem?_eq_getElem hmlt, hgetm]
        have hdroplast : (pts.drop m).getLast? = pts.getLast? := by
          rw [List.getLast?_drop, if_neg (by omega)]
        obtain ⟨r0, rt, hrEq⟩ : ∃ r0 rt, right = r0 :: rt := by
          cases right with
          | nil =>
            rw [hdrophead] at hRhead
            exact absurd hRhead.symm (by simp)
          | cons r0 rt => exact ⟨r0, rt, rfl⟩
        have hr0 : r0 = pts.getD m (0, 0) := by
          rw [hrEq, hdrophead] at hRhead
          simpa using hRhead
        have hLne : left ≠ [] := by
          intro h
          rw [h, htakelast] at hLlast
          exact absurd hLlast.symm (by simp)
        have hLgetLast : left.getLast hLne = pts.getD m (0, 0) := by
          have := List.getLast?_eq_getLast left hLne
          rw [htakelast] at hLlast
          rw [this] at hLlast
          simpa using hLlast
        have hLeq2 : left.dropLast ++ [pts.getD m (0, 0)] = left := by
          rw [← hLgetLast]
          exact List.dropLast_append_getLast hLne
        have hcomb : left.dropLast ++ right = left ++ rt := by
          rw [hrEq, hr0]
          rw [show left.dropLast ++ pts.getD m (0, 0) :: rt =
            (left.dropLast ++ [pts.getD m (0, 0)]) ++ rt by simp]
          rw [hLeq2]
        refine ⟨left.dropLast ++ right, ?_, ?_, ?_, ?_, ?_⟩
        · unfold simplifyRec
          rw [if_neg (by omega)]
          simp only [← hmdef, hgt, if_true, hLeq, hReq]
        · -- sublist
          have hdropcons : pts.drop m = pts[m] :: pts.drop (m + 1) :=
            List.drop_eq_getElem_cons hmlt
          have hrt_sub : List.Sublist rt (pts.drop (m + 1)) := by
            have := hRsub
            rw [hrEq, hdropcons] at this
            exact sublist_tail_of_cons_sublist_cons this
          rw [hcomb, ← List.take_append_drop (m + 1) pts]
          have htt : List.Sublist rt (pts.drop (m + 1)) := hrt_sub
          exact List.Sublist.append hLsub htt
        · -- head?
          have hlh : left.head? = pts.head? := hLhead.trans htakehead
          obtain ⟨l0, lt0, hlEq⟩ : ∃ l0 lt0, left = l0 :: lt0 := by
            cases left with
            | nil => exact absurd rfl hLne
            | cons l0 lt0 => exact ⟨l0, lt0, rfl⟩
          rw [hcomb, hlEq]
          rw [hlEq] at hlh
          simpa using hlh
        · -- getLast?
          rw [List.getLast?_append_of_ne_nil _ (by rw [hrEq]; simp)]
          rw [hRlast, hdroplast]
        · -- deviation
          intro p hp hnp
          rw [← List.take_append_drop (m + 1) pts] at hp
          rcases List.mem_append.mp hp with hpT | hpD
          · have hpnl : p ∉ left := by
              intro hin
              apply hnp
              rw [← hLeq2] at hin
              rcases List.mem_append.mp hin with h1 | h1
              · exact List.mem_append.mpr (Or.inl h1)
              · rw [List.mem_singleton] at h1
                subst h1
                refine List.mem_append.mpr (Or.inr ?_)
                rw [hrEq, ← hr0]
                exact List.mem_cons_self r0 rt
            obtain ⟨a, b, hinf, hbound⟩ := hLdev p hpT hpnl
            refine ⟨a, b, ?_, hbound⟩
            rw [hcomb]
            exact infix_append_right rt hinf
          · have hpD2 : p ∈ pts.drop m := by
              rw [List.drop_eq_getElem_cons hmlt]
              exact List.mem_cons_of_mem _ hpD
            have hpnr : p ∉ right := fun hin =>
              hnp (List.mem_append.mpr (Or.inr hin))
            obtain ⟨a, b, hinf, hbound⟩ := hRdev p hpD2 hpnr
            exact ⟨a, b, infix_append_left left.dropLast hinf, hbound⟩
      · -- all interior deviations within epsilon: collapse to the endpoints
        have hmle : (dpMaxLoop pts).1 ≤ epsilon ^ 2 := by
          simp only [sqrtGt, decide_eq_true_eq] at hgt
          push_neg at hgt
          exact hgt.2
        obtain ⟨a0, t0, hptsEq⟩ : ∃ a0 t0, pts = a0 :: t0 := by
          cases pts with
          | nil => simp at h3
          | cons a0 t0 => exact ⟨a0, t0, rfl⟩
        obtain ⟨lst, hlst⟩ : ∃ lst, pts.getLast? = some lst := by
          cases hl : pts.getLast? with
          | none =>
            rw [List.getLast?_eq_none_iff] at hl
            rw [hl] at h3
            simp at h3
          | some lst => exact ⟨lst, rfl⟩
        have hhd : pts.headD (0, 0) = a0 := by rw [hptsEq]; rfl
        have hlstD : pts.getLast?.getD (0, 0) = lst := by rw [hlst]; rfl
        have ht0ne : t0 ≠ [] := by
          intro h
          rw [hptsEq, h] at h3
          simp at h3
        have hlstmem : lst ∈ t0 := by
          have hcons : pts.getLast? = t0.getLast? := by
            rw [hptsEq]
            cases t0 with
            | nil => exact absurd rfl ht0ne
            | cons b tb => rfl
          have h1 : t0.getLast? = some lst := by rw [← hcons]; exact hlst
          rw [List.getLast?_eq_getLast t0 ht0ne] at h1
          have h3 : t0.getLast ht0ne = lst := by
            simpa using h1
          rw [← h3]
          exact List.getLast_mem ht0ne
        refine ⟨[pts.headD (0, 0), pts.getLast?.getD (0, 0)], ?_, ?_, ?_, ?_, ?_⟩
        · unfold simplifyRec
          rw [if_neg (by omega)]
          simp [hgt]
        · rw [hhd, hlstD, hptsEq]
          exact List.Sublist.cons₂ a0 (List.singleton_sublist.mpr hlstmem)
        · rw [hhd, hptsEq]
          rfl
        · rw [hlstD, hlst]
          rfl
        · intro p hp hnp
          simp only [List.mem_cons, List.not_mem_nil, or_false, not_or] at hnp
          obtain ⟨hne1, hne2⟩ := hnp
          obtain ⟨i, hi, hpi⟩ := List.mem_iff_getElem.mp hp
          have hi0 : i ≠ 0 := by
            intro h
            subst h
            apply hne1
            rw [← hpi]
            simp [hptsEq]
          have hilast : i ≠ pts.length - 1 := by
            intro h
            subst h
            apply hne2
            rw [← hpi, hlstD]
            have h2 := List.getLast?_eq_getElem? pts
            rw [hlst, List.getElem?_eq_getElem hi] at h2
            have h3 : lst = pts[pts.length - 1] := by simpa using h2
            exact h3.symm
          have hdev := hmMax i (by omega) (by omega)
          refine ⟨pts.headD (0, 0), pts.getLast?.getD (0, 0), ⟨[], [], by simp⟩, ?_⟩
          have hchord : chordDev pts i = perpendicular_distance_sq p
              (pts.headD (0, 0)) (pts.getLast?.getD (0, 0)) := by
            unfold chordDev
            rw [List.getD_eq_getElem pts (0, 0) hi, hpi]
            rw [show pts.getD 0 (0, 0) = pts.headD (0, 0) by rw [hptsEq]; rfl]
          rw [← hchord]
          exact le_trans hdev hmle

/-- C8 amended: for every point list and every `epsilon ≥ 0`,
`douglas_peucker_simplify` terminates and returns a subsequence of the input
that keeps the original first and last point, and every discarded input
point is within `epsilon` (squared perpendicular distance at most
`epsilon ^ 2`) of the chord between some adjacent pair of output points. -/
theorem douglas_peucker_props (points : List Pt) (epsilon : ℚ)
    (heps : 0 ≤ epsilon) :
    ∃ out, douglas_peucker_simplify points epsilon = some out ∧
      out.Sublist points ∧
      out.head? = points.head? ∧
      out.getLast? = points.getLast? ∧
      ∀ p ∈ points, p ∉ out →
        ∃ a b, List.IsInfix [a, b] out ∧
          perpendicular_distance_sq p a b ≤ epsilon ^ 2 :=
  simplifyRec_spec epsilon heps (points.length + 1) points (by omega)

/-- Witness for C8 amended at a concrete input. -/
theorem douglas_peucker_props_witness :
    (0 : ℚ) ≤ 2 ∧
      (∃ out, douglas_peucker_simplify [(0, 0), (1, 5), (2, 0), (3, 0)] 2 = some out ∧
        out.Sublist [(0, 0), (1, 5), (2, 0), (3, 0)] ∧
        out.head? = ([(0, 0), (1, 5), (2, 0), (3, 0)] : List Pt).head? ∧
        out.getLast? = ([(0, 0), (1, 5), (2, 0), (3, 0)] : List Pt).getLast? ∧
        ∀ p ∈ ([(0, 0), (1, 5), (2, 0), (3, 0)] : List Pt), p ∉ out →
          ∃ a b, List.IsInfix [a, b] out ∧
            perpendicular_distance_sq p a b ≤ (2 : ℚ) ^ 2) :=
  ⟨by norm_num, douglas_peucker_props [(0, 0), (1, 5), (2, 0), (3, 0)] 2 (by norm_num)⟩

/-- C8 counterexample: for a negative `epsilon` the claim fails as stated
("for every epsilon"): on three coincident points every deviation is 0, the
scan leaves the split index at 0, and `simplify_recursive` recurses on
`pts[0:]`, the whole list, forever — Python dies with `RecursionError` and
returns no simplified list at all (modelled by fuel exhaustion). -/
theorem douglas_peucker_negative_epsilon_diverges :
    douglas_peucker_simplify [(0, 0), (0, 0), (0, 0)] (-1) = none := by
  with_unfolding_all rfl

end AirWrite
